import Mathlib

/-!
USM_Oled: the glyph atlas of the OLED status display.

A shallow embedding of `Firmware/USMArduinoFirmware/USM_Oled.h`: the glyph
table `pattern_table`, its index constants, and the bitmap reading of a glyph
(10 columns of 8 vertically packed bits, bit 0 the top pixel). The header only
declares the renderers; cell addressing, the animator and the display are
modelled from the specification and marked as such.
-/

namespace USMOled

/-! The atlas, as written in the header -/

/-- The column count of a glyph: `#define PATTERN_WIDTH 10`. -/
def PATTERN_WIDTH : Nat := 10

/-- Index constant `#define FRAME_SOLID 4`. -/
def FRAME_SOLID : Nat := 4

/-- Index constant `#define FRAME_DASHED 5`. -/
def FRAME_DASHED : Nat := 5

/-- Index constant `#define INP_TOP_LEFT 0`. -/
def INP_TOP_LEFT : Nat := 0

/-- Index constant `#define INP_BOTTOM_LEFT 1`. -/
def INP_BOTTOM_LEFT : Nat := 1

/-- Index constant `#define INP_TOP_RIGHT 2`. -/
def INP_TOP_RIGHT : Nat := 2

/-- Index constant `#define INP_BOTTOM_RIGHT 3`. -/
def INP_BOTTOM_RIGHT : Nat := 3

/-- The flat brace-enclosed initializer of `pattern_table`, byte for byte in
source order (one source line per line here). -/
def pattern_init : List Nat :=
  [0xff,0x8f,0x8f,0x8f,0x8f,0x81,0x81,0x81, 0x81,0xff,  -- 0 tl
   0xff,0xf1,0xf1,0xf1,0xf1,0x81,0x81,0x81, 0x81,0xff,  -- 1 bl
   0xff,0x81,0x81,0x81,0x81,0x8f,0x8f,0x8f, 0x8f,0xff,  -- 2 tr
   0xff,0x81,0x81,0x81,0x81,0xf1,0xf1,0xf1, 0xf1,0xff,  -- 3 br
   0xff,0x81,0x81,0x81,0x81,0x81,0x81,0x81, 0x81,0xff,  -- 4 outer frame solid
   0xdb,0x81,0x00,0x00,0x81,0x81,0x00,0x00, 0x81,0xdb,  -- 5 outer frame dashed
   0xc0,0x70,0x1c,0x04,0x46,0xe2,0x73,0x79, 0x00,0x00,  -- 06 sh logo tl
   0x71,0xe3,0x52,0x06,0x04,0x1c,0xf0,0x00, 0x00,0x00,  -- 07 sh logo tr
   0x03,0x0e,0x38,0x20,0x67,0x45,0xc4,0x80, 0x00,0x00,  -- 08 sh logo bl
   0x87,0xcd,0x48,0x6c,0x24,0x07,0x01,0x00, 0x00,0x00]  -- 19 sh logo br

/-- One row of a C array initialised from a flat list: the next `w` values,
zero-filled when the list runs out before the row is complete. -/
def takeRow (w : Nat) (xs : List Nat) : List Nat :=
  xs.take w ++ List.replicate (w - (xs.take w).length) 0

/-- Aggregate initialisation of `T a[][w]` from a flat initializer list (brace
elision): rows are filled in order, and the array has as many rows as are
needed to hold every initializer. `fuel` bounds the number of rows. -/
def rowsOfFlat (w : Nat) : Nat → List Nat → List (List Nat)
  | 0, _ => []
  | _, [] => []
  | fuel + 1, x :: xs => takeRow w (x :: xs) :: rowsOfFlat w fuel ((x :: xs).drop w)

/-- The array `static const uint8_t PROGMEM pattern_table[][PATTERN_WIDTH]`. -/
def pattern_table : List (List Nat) :=
  rowsOfFlat PATTERN_WIDTH pattern_init.length pattern_init

/-- The byte `pattern_table[g][c]`; reads outside the table give 0. -/
def glyphByte (g c : Nat) : Nat :=
  (pattern_table.getD g []).getD c 0

/-- Pixel of glyph `g` at column `c` (0 leftmost) and row `r` (bit `r` of the
column byte, bit 0 the top pixel). -/
def pixelLit (g c r : Nat) : Bool :=
  (glyphByte g c).testBit r

/-- A fill pixel of glyph `g`: lit in `g` and not part of the solid frame. -/
def fillPixel (g c r : Nat) : Bool :=
  pixelLit g c r && !pixelLit FRAME_SOLID c r

/-- Bitwise complement of a `uint8_t` value, kept to 8 bits. -/
def not8 (b : Nat) : Nat :=
  0xFF ^^^ (b % 256)

/-- The 8-bit reversal of a byte: bit `i` moves to bit `7 - i`. -/
def bitReverse8 (b : Nat) : Nat :=
  (List.range 8).foldl (fun acc i => acc + (if b.testBit i then 2 ^ (7 - i) else 0)) 0

/-! The logo image -/

/-- A pixel position (x, y): x counts pixel columns from the left, y pixel rows
from the top. -/
abbrev Px := Nat × Nat

/-- Pixel (x, y) of the logo image built from glyph 6 (top-left), glyph 7
(top-right), glyph 8 (bottom-left) and glyph 9 (bottom-right): the right-hand
glyphs start `pitch` pixel columns right of the left-hand ones, the bottom
glyphs 8 rows below the top ones, and each glyph contributes its first `pitch`
columns. With `pitch = PATTERN_WIDTH` these are four whole, directly adjacent
10x8 cells (a 20x16 bitmap). -/
def logoPixel (pitch x y : Nat) : Bool :=
  decide (x < 2 * pitch) && decide (y < 16) &&
    pixelLit (6 + x / pitch + 2 * (y / 8)) (x % pitch) (y % 8)

/-- 8-neighbour adjacency of two distinct pixel positions. -/
def adj8 (p q : Px) : Bool :=
  decide (p ≠ q) && decide (p.1 ≤ q.1 + 1) && decide (q.1 ≤ p.1 + 1) &&
    decide (p.2 ≤ q.2 + 1) && decide (q.2 ≤ p.2 + 1)

/-- One step between two lit, 8-adjacent pixels of the logo image. -/
def logoStep (pitch : Nat) (p q : Px) : Prop :=
  logoPixel pitch p.1 p.2 = true ∧ logoPixel pitch q.1 q.2 = true ∧ adj8 p q = true

/-- The lit pixels of the logo image form a single 8-connected region: any two
of them are joined by a chain of steps through lit pixels. -/
def logoConnected (pitch : Nat) : Prop :=
  ∀ p q : Px, logoPixel pitch p.1 p.2 = true → logoPixel pitch q.1 q.2 = true →
    Relation.ReflTransGen (logoStep pitch) p q

/-- Pixel column `x` of the logo image has no lit pixel. -/
def logoColumnBlank (pitch x : Nat) : Bool :=
  (List.range 16).all fun y => !logoPixel pitch x y

/-- Pixel row `y` of the logo image has no lit pixel. -/
def logoRowBlank (pitch y : Nat) : Bool :=
  (List.range (2 * pitch)).all fun x => !logoPixel pitch x y

/-- The lit pixels of the logo image, column by column. -/
def logoLit (pitch : Nat) : List Px :=
  (List.range (2 * pitch)).flatMap fun x =>
    ((List.range 16).filter fun y => logoPixel pitch x y).map fun y => (x, y)

/-- One round of flood fill: add the lit pixels adjacent to a reached one. -/
def floodStep (pitch : Nat) (reached : List Px) : List Px :=
  reached ++ (logoLit pitch).filter fun q =>
    !reached.contains q && reached.any fun p => logoPixel pitch p.1 p.2 && adj8 p q

/-- Flood fill of the logo image for `n` rounds, starting from `reached`. -/
def flood (pitch : Nat) : Nat → List Px → List Px
  | 0, reached => reached
  | n + 1, reached => flood pitch n (floodStep pitch reached)

/-! Cell addressing, the animator and the display -/

/-- The number of pins in one snapshot word: the snapshot parameter is declared
`uint16_t g_mcp_io_values[]`. -/
def PINS_PER_CHIP : Nat := 16

/-- Modelled from the spec: the Cell Addressing function, which the header does
not define (it only declares the renderers that use it). The pins of all chips,
numbered chip by chip, are laid out in a regular grid of `cols` cells per row,
wrapping to a new row when a row is exhausted; the result is the (column, row)
of the cell, in glyph-cell units. -/
def cellAddress (cols chip pin : Nat) : Nat × Nat :=
  ((chip * PINS_PER_CHIP + pin) % cols, (chip * PINS_PER_CHIP + pin) / cols)

/-- Modelled from the spec: decoding of the change signal `port_changed` into
(chip, pin); the encoding belongs to the polling code, which the header does not
contain, and is read here as the linear index `chip * 16 + pin`. -/
def decodePort (port_changed : Nat) : Nat × Nat :=
  (port_changed / PINS_PER_CHIP, port_changed % PINS_PER_CHIP)

/-- The logical level of a pin in the snapshot: bit `pin` of the word of `chip`. -/
def pinLevel (g_mcp_io_values : List Nat) (chip pin : Nat) : Bool :=
  (g_mcp_io_values.getD chip 0).testBit pin

/-- A drawing primitive "draw glyph G at column X, row Y", in glyph-cell units. -/
structure Draw where
  /-- Atlas index of the glyph. -/
  glyph : Nat
  /-- Cell column. -/
  col : Nat
  /-- Cell row. -/
  row : Nat
deriving DecidableEq

/-- Modelled from the spec: the body of `USM_Oled_animate`, which the header
only declares. It decodes the change signal, reads the level of that pin from
the snapshot, selects the glyph (`onGlyph` for level on, FRAME_DASHED for level
off) and emits the draw for that pin's cell. -/
def USM_Oled_animate (cols onGlyph : Nat) (port_changed : Nat)
    (g_mcp_io_values : List Nat) : List Draw :=
  let cp := decodePort port_changed
  let cell := cellAddress cols cp.1 cp.2
  [{ glyph := if pinLevel g_mcp_io_values cp.1 cp.2 then onGlyph else FRAME_DASHED,
     col := cell.1, row := cell.2 }]

/-- The display contents: whether pixel (x, y) is lit. -/
abbrev Screen := Nat → Nat → Bool

/-- Modelled from the spec: the effect of one drawing primitive on the display
(the display driver is outside the header): the glyph replaces the 10x8 pixel
block of cell (col, row); every other pixel keeps its value. -/
def drawGlyph (s : Screen) (d : Draw) : Screen := fun x y =>
  if x / PATTERN_WIDTH = d.col ∧ y / 8 = d.row then
    pixelLit d.glyph (x % PATTERN_WIDTH) (y % 8)
  else s x y

/-- The display after a sequence of drawing primitives, applied in order. -/
def render (s : Screen) (ds : List Draw) : Screen :=
  ds.foldl drawGlyph s

/-! The atlas: layout and glyph shapes -/

/-- C1: the four quadrant glyphs together light the whole cell: in every column
the OR of the bytes of glyphs 0..3 is 0xFF, so each of the 10x8 pixels is lit in
at least one of them. -/
theorem quadrants_cover_cell (c : Nat) (hc : c < PATTERN_WIDTH) :
    (glyphByte 0 c ||| glyphByte 1 c ||| glyphByte 2 c ||| glyphByte 3 c = 0xFF) ∧
    ∀ r, r < 8 →
      pixelLit 0 c r = true ∨ pixelLit 1 c r = true ∨
      pixelLit 2 c r = true ∨ pixelLit 3 c r = true := by
  have h : ∀ c, c < 10 →
      (glyphByte 0 c ||| glyphByte 1 c ||| glyphByte 2 c ||| glyphByte 3 c = 0xFF) ∧
      ∀ r, r < 8 →
        pixelLit 0 c r = true ∨ pixelLit 1 c r = true ∨
        pixelLit 2 c r = true ∨ pixelLit 3 c r = true := by decide
  exact h c hc

/-- Witness for C1 at column 3. -/
theorem quadrants_cover_cell_witness :
    3 < PATTERN_WIDTH ∧
    (glyphByte 0 3 ||| glyphByte 1 3 ||| glyphByte 2 3 ||| glyphByte 3 3 = 0xFF) :=
  ⟨by decide, (quadrants_cover_cell 3 (by decide)).1⟩

/-- C2: any two distinct quadrant glyphs overlap in exactly the solid frame: for
distinct i, j in 0..3 and every column c, the AND of their bytes is the byte of
glyph FRAME_SOLID, so no fill pixel is shared. -/
theorem quadrants_overlap_only_in_frame (i j c : Nat) (hi : i < 4) (hj : j < 4)
    (hij : i ≠ j) (hc : c < PATTERN_WIDTH) :
    glyphByte i c &&& glyphByte j c = glyphByte FRAME_SOLID c ∧
    ∀ r, r < 8 → ¬ (fillPixel i c r = true ∧ fillPixel j c r = true) := by
  have hc10 : c < 10 := hc
  interval_cases i <;> interval_cases j <;>
    first
    | exact absurd rfl hij
    | (interval_cases c <;> exact ⟨by decide, by decide⟩)

/-- Witness for C2 at glyphs 0 and 3, column 2. -/
theorem quadrants_overlap_only_in_frame_witness :
    glyphByte 0 2 &&& glyphByte 3 2 = glyphByte FRAME_SOLID 2 :=
  (quadrants_overlap_only_in_frame 0 3 2 (by decide) (by decide) (by decide) (by decide)).1

/-- C3: each quadrant glyph fills the quadrant its index names: the pixels lit
in the glyph and not in the solid frame are exactly columns 1-4 (left) or 5-8
(right) and rows 1-3 (top) or 4-6 (bottom), for INP_TOP_LEFT, INP_BOTTOM_LEFT,
INP_TOP_RIGHT and INP_BOTTOM_RIGHT respectively. -/
theorem quadrant_fill_regions (c r : Nat) (hc : c < PATTERN_WIDTH) (hr : r < 8) :
    (fillPixel INP_TOP_LEFT c r = true ↔ (1 ≤ c ∧ c ≤ 4 ∧ 1 ≤ r ∧ r ≤ 3)) ∧
    (fillPixel INP_BOTTOM_LEFT c r = true ↔ (1 ≤ c ∧ c ≤ 4 ∧ 4 ≤ r ∧ r ≤ 6)) ∧
    (fillPixel INP_TOP_RIGHT c r = true ↔ (5 ≤ c ∧ c ≤ 8 ∧ 1 ≤ r ∧ r ≤ 3)) ∧
    (fillPixel INP_BOTTOM_RIGHT c r = true ↔ (5 ≤ c ∧ c ≤ 8 ∧ 4 ≤ r ∧ r ≤ 6)) := by
  have hc10 : c < 10 := hc
  interval_cases c <;> interval_cases r <;> decide

/-- Witness for C3 at column 2, row 5 (a fill pixel of the bottom-left glyph). -/
theorem quadrant_fill_regions_witness :
    fillPixel INP_BOTTOM_LEFT 2 5 = true ↔ (1 ≤ 2 ∧ 2 ≤ 4 ∧ 4 ≤ 5 ∧ 5 ≤ 6) :=
  (quadrant_fill_regions 2 5 (by decide) (by decide)).2.1

/-- C4: the initializer of pattern_table holds exactly 100 bytes, which fill
exactly 10 rows of PATTERN_WIDTH = 10 bytes with nothing padded, so that the
valid glyph indices are exactly 0..9 and each names a complete glyph. -/
theorem pattern_table_shape :
    PATTERN_WIDTH = 10 ∧ pattern_init.length = 100 ∧ pattern_table.length = 10 ∧
    (∀ g ∈ pattern_table, g.length = PATTERN_WIDTH) ∧
    pattern_table.flatten = pattern_init ∧
    (∀ i, i < pattern_table.length ↔ i < 10) := by
  refine ⟨rfl, by decide, by decide, by decide, by decide, ?_⟩
  intro i
  rw [show pattern_table.length = 10 by decide]

/-- C5: glyph FRAME_SOLID is the solid outer border of the cell: the pixel at
column c, row r is lit exactly when c = 0, c = 9, r = 0 or r = 7. -/
theorem frame_solid_is_border (c r : Nat) (hc : c < PATTERN_WIDTH) (hr : r < 8) :
    pixelLit FRAME_SOLID c r = true ↔ (c = 0 ∨ c = 9 ∨ r = 0 ∨ r = 7) := by
  have hc10 : c < 10 := hc
  interval_cases c <;> interval_cases r <;> decide

/-- Witness for C5 at column 9, row 3 (right edge). -/
theorem frame_solid_is_border_witness :
    pixelLit FRAME_SOLID 9 3 = true ↔ ((9 : Nat) = 0 ∨ (9 : Nat) = 9 ∨ (3 : Nat) = 0 ∨ (3 : Nat) = 7) :=
  frame_solid_is_border 9 3 (by decide) (by decide)

/-- C6: glyph FRAME_DASHED lights only border pixels (in every column its byte
AND the complement of the FRAME_SOLID byte is 0, so the interior columns 1-8,
rows 1-6 are blank), and it is a proper subset of the solid frame: some border
pixel of FRAME_SOLID is unlit in FRAME_DASHED. -/
theorem frame_dashed_within_solid :
    (∀ c, c < PATTERN_WIDTH →
      glyphByte FRAME_DASHED c &&& not8 (glyphByte FRAME_SOLID c) = 0) ∧
    (∀ c, c < PATTERN_WIDTH → ∀ r, r < 8 →
      pixelLit FRAME_DASHED c r = true → pixelLit FRAME_SOLID c r = true) ∧
    (∀ c, 1 ≤ c ∧ c ≤ 8 → ∀ r, 1 ≤ r ∧ r ≤ 6 → pixelLit FRAME_DASHED c r = false) ∧
    (∃ c, c < PATTERN_WIDTH ∧ ∃ r, r < 8 ∧
      pixelLit FRAME_SOLID c r = true ∧ pixelLit FRAME_DASHED c r = false) := by
  refine ⟨by decide, by decide, ?_, ⟨0, by decide, 2, by decide, by decide, by decide⟩⟩
  have h : ∀ c, c < 9 → 1 ≤ c → ∀ r, r < 7 → 1 ≤ r → pixelLit FRAME_DASHED c r = false := by
    decide
  intro c hc r hr
  exact h c (by omega) hc.1 r (by omega) hr.1

/-- Witness for C6 at column 0 and at the interior pixel (4, 3). -/
theorem frame_dashed_within_solid_witness :
    glyphByte FRAME_DASHED 0 &&& not8 (glyphByte FRAME_SOLID 0) = 0 ∧
    pixelLit FRAME_DASHED 4 3 = false :=
  ⟨frame_dashed_within_solid.1 0 (by decide),
   frame_dashed_within_solid.2.2.1 4 (by decide) 3 (by decide)⟩

/-- Reading the bits of a reversed byte: bit r of the reversal is bit 7 - r of
the byte. -/
theorem bitReverse8_testBit (b r : Nat) (hb : b < 256) (hr : r < 8) :
    (bitReverse8 b).testBit r = b.testBit (7 - r) := by
  have h : ∀ r, r < 8 → ∀ b, b < 256 →
      (bitReverse8 b).testBit r = b.testBit (7 - r) := by decide!
  exact h r hr b hb

/-- C10: the quadrant glyphs are mirror images of glyph 0: in every column c,
the byte of glyph 1 is the 8-bit reversal of the byte of glyph 0 (vertical
flip), the byte of glyph 2 is the byte of glyph 0 at column 9 - c (horizontal
flip), and the byte of glyph 3 is the reversal of the byte of glyph 0 at column
9 - c (both flips); pixel by pixel, row r of the flipped glyph is row 7 - r. -/
theorem quadrants_are_mirror_images (c : Nat) (hc : c < PATTERN_WIDTH) :
    glyphByte 1 c = bitReverse8 (glyphByte 0 c) ∧
    glyphByte 2 c = glyphByte 0 (9 - c) ∧
    glyphByte 3 c = bitReverse8 (glyphByte 0 (9 - c)) ∧
    ∀ r, r < 8 →
      pixelLit 1 c r = pixelLit 0 c (7 - r) ∧
      pixelLit 2 c r = pixelLit 0 (9 - c) r ∧
      pixelLit 3 c r = pixelLit 0 (9 - c) (7 - r) := by
  have hc10 : c < 10 := hc
  interval_cases c <;> exact ⟨by decide, by decide, by decide, by decide⟩

/-- Witness for C10 at column 1. -/
theorem quadrants_are_mirror_images_witness :
    glyphByte 1 1 = bitReverse8 (glyphByte 0 1) ∧
    glyphByte 2 1 = glyphByte 0 (9 - 1) ∧
    glyphByte 3 1 = bitReverse8 (glyphByte 0 (9 - 1)) :=
  have h := quadrants_are_mirror_images 1 (by decide)
  ⟨h.1, h.2.1, h.2.2.1⟩

/-! The logo image: connectivity -/

/-- Adjacency is symmetric. -/
theorem adj8_symm {p q : Px} (h : adj8 p q = true) : adj8 q p = true := by
  simp only [adj8, Bool.and_eq_true, decide_eq_true_eq] at h ⊢
  obtain ⟨⟨⟨⟨h1, h2⟩, h3⟩, h4⟩, h5⟩ := h
  exact ⟨⟨⟨⟨fun e => h1 e.symm, h3⟩, h2⟩, h5⟩, h4⟩

/-- A step between lit pixels can be taken in either direction. -/
theorem logoStep_symm (pitch : Nat) : Symmetric (logoStep pitch) :=
  fun _ _ h => ⟨h.2.1, h.1, adj8_symm h.2.2⟩

/-- A lit pixel of the logo image lies inside the image. -/
theorem logoPixel_bounds {pitch x y : Nat} (h : logoPixel pitch x y = true) :
    x < 2 * pitch ∧ y < 16 := by
  simp only [logoPixel, Bool.and_eq_true, decide_eq_true_eq] at h
  exact h.1

/-- The list of lit pixels holds exactly the lit pixels. -/
theorem mem_logoLit {pitch : Nat} {q : Px} :
    q ∈ logoLit pitch ↔ logoPixel pitch q.1 q.2 = true := by
  obtain ⟨x, y⟩ := q
  simp only [logoLit, List.mem_flatMap, List.mem_range, List.mem_map, List.mem_filter,
    Prod.mk.injEq]
  constructor
  · rintro ⟨a, -, b, ⟨-, hb⟩, rfl, rfl⟩
    exact hb
  · intro h
    exact ⟨x, (logoPixel_bounds h).1, y, ⟨(logoPixel_bounds h).2, h⟩, rfl, rfl⟩

/-- Every pixel a flood-fill round adds is joined to the seed if all reached
pixels were. -/
theorem floodStep_sound (pitch : Nat) (s : Px) (reached : List Px)
    (h : ∀ q ∈ reached, Relation.ReflTransGen (logoStep pitch) s q) :
    ∀ q ∈ floodStep pitch reached, Relation.ReflTransGen (logoStep pitch) s q := by
  intro q hq
  simp only [floodStep, List.mem_append, List.mem_filter, Bool.and_eq_true,
    List.any_eq_true] at hq
  rcases hq with hq | ⟨hlit, -, p, hp, hpl, hadj⟩
  · exact h q hq
  · exact (h p hp).tail ⟨hpl, mem_logoLit.mp hlit, hadj⟩

/-- Every pixel the flood fill reaches is joined to the seed. -/
theorem flood_sound (pitch : Nat) (s : Px) (n : Nat) (reached : List Px)
    (h : ∀ q ∈ reached, Relation.ReflTransGen (logoStep pitch) s q) :
    ∀ q ∈ flood pitch n reached, Relation.ReflTransGen (logoStep pitch) s q := by
  induction n generalizing reached with
  | zero => exact h
  | succ n ih => exact ih _ (floodStep_sound pitch s reached h)

/-- The flood fill from pixel (8, 0) reaches every lit pixel of the logo image
at pitch 8 within 26 rounds. -/
theorem flood_covers_logo8 :
    (logoLit 8).all (fun q => (flood 8 26 [(8, 0)]).contains q) = true := by
  decide!

/-- At pitch 8 any two lit pixels of the logo image are joined. -/
theorem logoConnected_8 : logoConnected 8 := by
  have reach : ∀ q : Px, logoPixel 8 q.1 q.2 = true →
      Relation.ReflTransGen (logoStep 8) (8, 0) q := by
    intro q hq
    have hcov := flood_covers_logo8
    rw [List.all_eq_true] at hcov
    have hmem := hcov q (mem_logoLit.mpr hq)
    refine flood_sound 8 (8, 0) 26 [(8, 0)] ?_ q (by simpa using hmem)
    intro r hr
    rw [List.mem_singleton] at hr
    subst hr
    exact Relation.ReflTransGen.refl
  intro p q hp hq
  exact ((Relation.ReflTransGen.symmetric (logoStep_symm 8)) (reach p hp)).trans (reach q hq)

/-- Pixel columns 8 and 9 of the image of four adjacent 10x8 cells are blank,
at every row. -/
theorem logo10_seam_blank (x y : Nat) (hx : x = 8 ∨ x = 9) : logoPixel 10 x y = false := by
  by_cases hy : y < 16
  · have h : ∀ y, y < 16 → logoPixel 10 8 y = false ∧ logoPixel 10 9 y = false := by
      decide!
    rcases hx with rfl | rfl
    · exact (h y hy).1
    · exact (h y hy).2
  · simp [logoPixel, hy]

/-- A chain of lit pixels starting left of column 8 stays left of column 8. -/
theorem logo10_left_closed {p q : Px} (h : Relation.ReflTransGen (logoStep 10) p q)
    (hp : p.1 ≤ 7) : q.1 ≤ 7 := by
  induction h with
  | refl => exact hp
  | @tail b c _ hstep ih =>
    obtain ⟨-, hlit, hadj⟩ := hstep
    simp only [adj8, Bool.and_eq_true, decide_eq_true_eq] at hadj
    by_contra hc
    have h8 : c.1 = 8 := by omega
    have hblank := logo10_seam_blank c.1 c.2 (Or.inl h8)
    rw [hlit] at hblank
    exact Bool.noConfusion hblank

/-- In adjacent 10-column cells the lit pixels (7, 0) and (10, 0) are not
joined. -/
theorem not_logoConnected_10 : ¬ logoConnected 10 := by
  intro h
  have hr := h (7, 0) (10, 0) (by decide) (by decide)
  have := logo10_left_closed hr (by decide)
  exact absurd this (by decide)

/-- C7 (as stated, refuted): in four directly adjacent 10x8 cells (glyphs 6 and
7 above glyphs 8 and 9, a 20x16 bitmap) the lit pixels are not one connected
region: pixel columns 8 and 9 are blank while both sides hold lit pixels. -/
theorem logo_adjacent_cells_not_connected :
    logoPixel PATTERN_WIDTH 7 0 = true ∧ logoPixel PATTERN_WIDTH 10 0 = true ∧
    logoColumnBlank PATTERN_WIDTH 8 = true ∧ logoColumnBlank PATTERN_WIDTH 9 = true ∧
    ¬ logoConnected PATTERN_WIDTH :=
  ⟨by decide, by decide, by decide!, by decide!, not_logoConnected_10⟩

/-- C7 (amended): columns 8 and 9 of every logo glyph are blank, and the four
logo glyphs drawn at an 8-pixel column pitch (the first 8 columns of each, a
16x16 bitmap) form a single 8-connected region in which no pixel column 0..14
and no pixel row 0..15 is blank. -/
theorem logo_composes_at_pitch_8 :
    (∀ g, 6 ≤ g ∧ g ≤ 9 → ∀ r, pixelLit g 8 r = false ∧ pixelLit g 9 r = false) ∧
    logoConnected 8 ∧
    (∀ x, x < 15 → logoColumnBlank 8 x = false) ∧
    (∀ y, y < 16 → logoRowBlank 8 y = false) := by
  refine ⟨?_, logoConnected_8, by decide!, by decide!⟩
  intro g hg r
  have h : ∀ g, g < 10 → 6 ≤ g → glyphByte g 8 = 0 ∧ glyphByte g 9 = 0 := by decide
  obtain ⟨h8, h9⟩ := h g (by omega) hg.1
  simp [pixelLit, h8, h9]

/-- Witness for C7 (amended): the lit pixels (0, 6) and (14, 8), at the left and
right ends of the image, are joined by a chain of lit pixels. -/
theorem logo_composes_at_pitch_8_witness :
    Relation.ReflTransGen (logoStep 8) (0, 6) (14, 8) :=
  logo_composes_at_pitch_8.2.1 (0, 6) (14, 8) (by decide) (by decide)

/-! Cell addressing and the animator -/

/-- A linear index is recovered from its (remainder, quotient) by the grid
width. -/
theorem cellAddress_eq_iff {cols : Nat} (a b : Nat) :
    (a % cols, a / cols) = (b % cols, b / cols) ↔ a = b := by
  constructor
  · intro h
    rw [Prod.mk.injEq] at h
    rw [← Nat.div_add_mod a cols, ← Nat.div_add_mod b cols, h.1, h.2]
  · rintro rfl
    rfl

/-- The pixel block of a cell other than the drawn one is not changed by a
drawing primitive. -/
theorem drawGlyph_other_cell (s : Screen) (d : Draw) (cell : Nat × Nat)
    (hne : cell ≠ (d.col, d.row)) (dx dy : Nat) (hdx : dx < PATTERN_WIDTH) (hdy : dy < 8) :
    drawGlyph s d (cell.1 * PATTERN_WIDTH + dx) (cell.2 * 8 + dy) =
      s (cell.1 * PATTERN_WIDTH + dx) (cell.2 * 8 + dy) := by
  have hx : (cell.1 * PATTERN_WIDTH + dx) / PATTERN_WIDTH = cell.1 := by
    simp only [PATTERN_WIDTH] at hdx ⊢
    omega
  have hy : (cell.2 * 8 + dy) / 8 = cell.2 := by omega
  unfold drawGlyph
  rw [hx, hy, if_neg]
  rintro ⟨h1, h2⟩
  exact hne (Prod.ext h1 h2)

/-- C8: the animator repaints only the cell decoded from port_changed: every
draw it emits targets the cell of the decoded (chip, pin) pair, and the pixel
content of every other cell is the same after the call as before it; this holds
for every port_changed (in range or not) and every snapshot. -/
theorem animate_repaints_only_decoded_cell (cols onGlyph port_changed : Nat)
    (g_mcp_io_values : List Nat) (s : Screen) :
    (∀ d ∈ USM_Oled_animate cols onGlyph port_changed g_mcp_io_values,
      (d.col, d.row) =
        cellAddress cols (decodePort port_changed).1 (decodePort port_changed).2) ∧
    (∀ cell : Nat × Nat,
      cell ≠ cellAddress cols (decodePort port_changed).1 (decodePort port_changed).2 →
      ∀ dx, dx < PATTERN_WIDTH → ∀ dy, dy < 8 →
        render s (USM_Oled_animate cols onGlyph port_changed g_mcp_io_values)
            (cell.1 * PATTERN_WIDTH + dx) (cell.2 * 8 + dy) =
          s (cell.1 * PATTERN_WIDTH + dx) (cell.2 * 8 + dy)) := by
  constructor
  · intro d hd
    simp only [USM_Oled_animate, List.mem_singleton] at hd
    subst hd
    rfl
  · intro cell hne dx hdx dy hdy
    simp only [USM_Oled_animate, render, List.foldl_cons, List.foldl_nil]
    exact drawGlyph_other_cell s _ cell hne dx dy hdx hdy

/-- Witness for C8: on a 12-column grid, the change signal 19 (chip 1, pin 3) on
a blank display leaves pixel (0, 0) of cell (0, 0) as it was. -/
theorem animate_repaints_only_decoded_cell_witness :
    render (fun _ _ => false) (USM_Oled_animate 12 FRAME_SOLID 19 [0, 8]) 0 0 = false :=
  (animate_repaints_only_decoded_cell 12 FRAME_SOLID 19 [0, 8] (fun _ _ => false)).2
    (0, 0) (by decide) 0 (by decide) 0 (by decide)

/-- C9: Cell Addressing is injective: for every mcps_found (and every grid
width), two distinct (chip, pin) pairs with chip < mcps_found and pin < 16 map
to distinct (column, row) cells. -/
theorem cellAddress_injective (cols mcps_found c1 p1 c2 p2 : Nat)
    (_hc1 : c1 < mcps_found) (_hc2 : c2 < mcps_found)
    (hp1 : p1 < PINS_PER_CHIP) (hp2 : p2 < PINS_PER_CHIP)
    (hne : (c1, p1) ≠ (c2, p2)) :
    cellAddress cols c1 p1 ≠ cellAddress cols c2 p2 := by
  intro h
  have hidx := (cellAddress_eq_iff _ _).mp h
  simp only [PINS_PER_CHIP] at hidx hp1 hp2
  apply hne
  have : c1 = c2 ∧ p1 = p2 := by omega
  rw [this.1, this.2]

/-- Witness for C9: with two chips on a 12-column grid, (0, 15) and (1, 0) map
to distinct cells. -/
theorem cellAddress_injective_witness :
    cellAddress 12 0 15 ≠ cellAddress 12 1 0 :=
  cellAddress_injective 12 2 0 15 1 0 (by decide) (by decide) (by decide) (by decide)
    (by decide)

end USMOled
